import Mathlib

/-!
Shallow embedding of `sqlglot/executor.py` (the in-memory SQL query executor)
and proofs about its operators: the plan scheduler, the columnar `DataTable`,
the `scan` / `nested_loop_join` / `sort_merge_join` / `aggregate` / `sort`
operators, and the expression-compiler fragments (`_cast_py`, `_interval_py`,
`_like_py`).

Machine values held in tables are modelled as `Int` (the executor is
dynamically typed; the properties studied here only need ordered, decidable
values).  A row is the tuple of values of one table row.  Python's stable
`list.sort(key=...)` is modelled by `List.mergeSort`, whose stability is a
stdlib theorem.  Python functions that can raise are modelled with `Option`
or `Except`.
-/

namespace Executor

abbrev Val := Int

abbrev Row := List Val

/-- Python's stable `list.sort(key=...)` for an `Int`-valued key, as used by
`Context.sort` (executor.py:447-457) at row level: a stable sort of the rows
by the key. -/
def pySortBy (key : α → Int) (l : List α) : List α :=
  l.mergeSort fun x y => decide (key x ≤ key y)

/-- Python tuple `<=` on evaluated key tuples (lexicographic). -/
def lexLe : List Val → List Val → Bool
  | [], _ => true
  | _ :: _, [] => false
  | a :: as, b :: bs => decide (a < b) || (decide (a = b) && lexLe as bs)

/-! ## Columnar table (`DataTable`, executor.py:349-390) -/

/-- Key list of a Python dict built as `{c: [] for c in cols}`
(executor.py:354): duplicates collapse onto the first occurrence. -/
def pyDictKeys : List String → List String
  | [] => []
  | c :: cs => c :: pyDictKeys (cs.filter fun d => decide (d ≠ c))
termination_by l => l.length
decreasing_by
  have := List.length_filter_le (fun d => decide (d ≠ c)) cs
  simp only [List.length_cons]
  omega

/-- executor.py:349-390 `DataTable`: an insertion-ordered dict from column
name to that column's value list, plus the row counter `length`. -/
structure DataTable where
  table : List (String × List Val)
  length : Nat
  deriving DecidableEq

/-- `self.width = len(self.columns)` (executor.py:356). -/
def DataTable.width (t : DataTable) : Nat := t.table.length

/-- `DataTable.__init__` from a list of column names (executor.py:350-358):
every (first-occurrence-deduplicated) column starts empty, length 0. -/
def DataTable.mk0 (cols : List String) : DataTable :=
  ⟨(pyDictKeys cols).map fun c => (c, ([] : List Val)), 0⟩

/-- executor.py:382-385 `DataTable.add`: for each column index `i < width`,
append `row[i]` to that column — `row[i]` is an IndexError (modelled `none`)
when the row is shorter than `width`, while values of `row` beyond `width`
are silently ignored — then increment the row counter. -/
def DataTable.add (t : DataTable) (row : List Val) : Option DataTable :=
  if t.width ≤ row.length then
    some ⟨t.table.zipWith (fun p v => (p.1, p.2 ++ [v])) (row.take t.width), t.length + 1⟩
  else none

/-- Repeated `DataTable.add`, as done by the operator sink loops. -/
def DataTable.addAll (t : DataTable) (rows : List Row) : Option DataTable :=
  rows.foldlM DataTable.add t

/-- `ColumnarReader.tuple` at row `i` (executor.py:491-495): the value of
every column at that row, in column order. -/
def DataTable.tupleAt (t : DataTable) (i : Nat) : Row :=
  t.table.map fun p => p.2.getD i 0

/-- `Context.iter_table` driven by the row counter (executor.py:442-445):
the row tuples of a table, front to back. -/
def DataTable.rows (t : DataTable) : List Row :=
  (List.range t.length).map t.tupleAt

/-! ## Nested-loop join (executor.py:214-222) -/

/-- The row pairing of `nested_loop_join` (executor.py:218-220): every row of
`a` against every row of `b`, in loop order. -/
def nestedLoopPairs (la : List α) (lb : List β) : List (α × β) :=
  la.flatMap fun x => lb.map fun y => (x, y)

/-- executor.py:214-222 `nested_loop_join`: a sink whose columns are both
sides' dict keys concatenated (first occurrence wins on a name clash, Python
dict semantics), filled with the concatenated row tuples of every pair of
rows; iteration over each side is driven by its row counter. -/
def nested_loop_join (A B : DataTable) : Option DataTable :=
  (DataTable.mk0 (A.table.map Prod.fst ++ B.table.map Prod.fst)).addAll
    (nestedLoopPairs A.rows B.rows |>.map fun p => p.1 ++ p.2)

/-! ## Sort-merge join (executor.py:225-274)

Per the claim under study the join condition is a single-column equi-join
`a.k = b.k`, so the evaluated key tuples are modelled by one `Int` key per
side (`ka`, `kb`), exactly what `get_key` (executor.py:251-253) computes. -/

/-- The merge phase of executor.py:255-273: while both sides remain, take the
smaller of the two current keys (`min` at executor.py:256), collect the
contiguous group of rows carrying exactly that key on each side
(executor.py:258-268), emit the cross product of the two groups
(executor.py:270-272), and continue past both groups. -/
def mergeJoin (ka : α → Int) (kb : β → Int) : List α → List β → List (α × β)
  | [], _ => []
  | _ :: _, [] => []
  | x :: xs, y :: ys =>
    nestedLoopPairs
        ((x :: xs).takeWhile fun r => decide (ka r = min (ka x) (kb y)))
        ((y :: ys).takeWhile fun r => decide (kb r = min (ka x) (kb y))) ++
      mergeJoin ka kb
        ((x :: xs).dropWhile fun r => decide (ka r = min (ka x) (kb y)))
        ((y :: ys).dropWhile fun r => decide (kb r = min (ka x) (kb y)))
termination_by la lb => la.length + lb.length
decreasing_by
  rw [List.dropWhile_cons, List.dropWhile_cons]
  rcases le_total (ka x) (kb y) with h | h
  · have hx : (decide (ka x = min (ka x) (kb y))) = true := by
      simp [min_eq_left h]
    rw [if_pos hx]
    have h2 : ((xs.dropWhile fun r => decide (ka r = min (ka x) (kb y)))).length ≤
        xs.length := (List.dropWhile_sublist _).length_le
    have h3 : (if decide (kb y = min (ka x) (kb y)) = true
        then ys.dropWhile fun r => decide (kb r = min (ka x) (kb y))
        else y :: ys).length ≤ (y :: ys).length := by
      split
      · exact le_trans (List.dropWhile_sublist _).length_le (by simp)
      · exact le_refl _
    simp only [List.length_cons] at *
    omega
  · have hy : (decide (kb y = min (ka x) (kb y))) = true := by
      simp [min_eq_right h]
    rw [if_pos hy]
    have h2 : ((ys.dropWhile fun r => decide (kb r = min (ka x) (kb y)))).length ≤
        ys.length := (List.dropWhile_sublist _).length_le
    have h3 : (if decide (ka x = min (ka x) (kb y)) = true
        then xs.dropWhile fun r => decide (ka r = min (ka x) (kb y))
        else x :: xs).length ≤ (x :: xs).length := by
      split
      · exact le_trans (List.dropWhile_sublist _).length_le (by simp)
      · exact le_refl _
    simp only [List.length_cons] at *
    omega

/-- executor.py:225-274 `sort_merge_join`: stably sort both sides by their
key (executor.py:239-240), then merge. -/
def sort_merge_join (ka : α → Int) (kb : β → Int) (la : List α) (lb : List β) :
    List (α × β) :=
  mergeJoin ka kb (pySortBy ka la) (pySortBy kb lb)

/-! ## Row-limit truthiness and the emit loops (Sort and Scan) -/

/-- `step.limit and sink.length >= step.limit` (executor.py:156, 344):
Python truthiness makes an absent limit and a limit of `0` both falsy. -/
def limitHit (limit : Option Nat) (len : Nat) : Bool :=
  match limit with
  | none => false
  | some k => decide (k ≠ 0) && decide (k ≤ len)

/-- The emit loop of the Sort operator (executor.py:341-345): append the
projected row to the sink, then stop as soon as the sink length reaches the
limit. `len` is the sink length so far. -/
def emitRows (f : Row → Row) (limit : Option Nat) (len : Nat) : List Row → List Row
  | [] => []
  | r :: rs =>
    f r :: (if limitHit limit (len + 1) then [] else emitRows f limit (len + 1) rs)

/-- executor.py:331-346 `sort`: stably sort the single input table by the
evaluated key (`context.sort`, executor.py:334), then emit the projected
rows in sorted order up to the limit. `projs` are the compiled projection
units, `key` the compiled sort-key (descending keys are realized inside the
key's ordering by `reverse_key` and need no separate treatment here). -/
def sortStep (key : Row → Int) (projs : List (Row → Val)) (limit : Option Nat)
    (rows : List Row) : List Row :=
  emitRows (fun r => projs.map fun f => f r) limit 0 (pySortBy key rows)

/-! ## `Context.sort` (executor.py:447-457) -/

/-- The stable ordering of the row indices `0, …, n-1` under the key
(executor.py:453-454 `index = list(range(length)); index.sort(key=_sort)`;
Python's `list.sort` is stable, modelled by `mergeSort`). `key i` is the
evaluation of the key function with the table's row reader set to row `i`. -/
def sortIndex (n : Nat) (key : Nat → Int) : List Nat :=
  (List.range n).mergeSort fun i j => decide (key i ≤ key j)

/-- executor.py:455-457: rebuild every column of the table by the single
index permutation (`table[column] = [rows[i] for i in index]`). `n` is the
table's row counter `data_table.length`. -/
def contextSort (n : Nat) (key : Nat → Int) (cols : List (List Val)) : List (List Val) :=
  cols.map fun rows => (sortIndex n key).map fun i => rows.getD i 0

/-! ## The expression compiler: `_cast_py`, `_interval_py` (executor.py:512-530)

These are code generators: they emit Python source text, so they are
modelled at the string level.  A `NotImplementedError` raised while
generating code is `Except.error ()`. -/

/-- The `exp.DataType.Type` values a cast target can carry (only `DATE` is
special-cased by the generator; the rest all fall through to `raise`). -/
inductive DType
  | date
  | varchar
  | int_
  | float_
  | boolean
  deriving DecidableEq

/-- executor.py:512-518 `Python._cast_py`: a `DATE` target compiles to
parsing an ISO-8601 date string; any other target raises
NotImplementedError while the code is being generated. -/
def castPy (toTy : DType) (this : String) : Except Unit String :=
  match toTy with
  | DType.date => Except.ok ("datetime.date.fromisoformat(" ++ this ++ ")")
  | _ => Except.error ()

/-- `expression.text("unit").upper()` (executor.py:527); the unit text is
modelled as its character list. -/
def pyUpper (s : List Char) : List Char :=
  s.map Char.toUpper

/-- executor.py:525-530 `Python._interval_py`: unit `DAY` (case-insensitive,
the text is uppercased first) compiles to a timedelta of float-coerced days;
any other unit raises NotImplementedError while the code is being
generated. -/
def intervalPy (unit : List Char) (this : String) : Except Unit String :=
  if pyUpper unit = ['D', 'A', 'Y'] then
    Except.ok ("datetime.timedelta(days=float(" ++ this ++ "))")
  else Except.error ()

/-- The compile-then-run shape of every operator (e.g. executor.py:126-127:
`generate` runs on the filter and projections before any row is visited):
a code-generation failure aborts before the row loop can process anything. -/
def compileThenRun (compiled : Except Unit γ) (run : γ → List Row → List Row)
    (rows : List Row) : Except Unit (List Row) :=
  match compiled with
  | Except.error e => Except.error e
  | Except.ok c => Except.ok (run c rows)

/-! ## `LIKE` (executor.py:532-535 `Python._like_py`)

`_like_py` emits `re.match(pattern.replace("_", ".").replace("%", ".*"), s)`.
The pattern text is NOT escaped, so characters of the pattern reach Python's
`re` engine as regex syntax.  The model parses the generated regex text into
the fragment actually exercised by translated LIKE patterns — literal
characters, `.` and `.*` — and refuses (`none`) any pattern using regex
syntax beyond that fragment. -/

/-- Regex metacharacters whose semantics the token model does not cover.
(`.` is handled by the parser; `{`/`}` are written with escapes.) -/
def specialChar (c : Char) : Bool :=
  c = '\\' || c = '(' || c = ')' || c = '[' || c = ']' || c = '\x7b' ||
    c = '\x7d' || c = '|' || c = '^' || c = '$' || c = '+' || c = '?' || c = '*'

/-- The regex text produced at executor.py:535:
`pattern.replace("_", ".").replace("%", ".*")`. -/
def likeRegexChars (p : List Char) : List Char :=
  (p.map fun c => if c = '_' then '.' else c).flatMap
    fun c => if c = '%' then ['.', '*'] else [c]

/-- One token of the regex fragment. -/
inductive RTok
  | lit (c : Char)
  | dot
  | dotStar
  deriving DecidableEq

/-- Parse regex text into tokens; `none` when the text falls outside the
fragment (an uncovered metacharacter).  `.` followed by `*` is the
Kleene-starred wildcard, a bare `.` the single-character wildcard. -/
def parseTokens : List Char → Option (List RTok)
  | [] => some []
  | [c] =>
    if c = '.' then some [RTok.dot]
    else if specialChar c then none
    else some [RTok.lit c]
  | c :: c2 :: rest =>
    if c = '.' then
      if c2 = '*' then (parseTokens rest).map (RTok.dotStar :: ·)
      else (parseTokens (c2 :: rest)).map (RTok.dot :: ·)
    else if specialChar c then none
    else (parseTokens (c2 :: rest)).map (RTok.lit c :: ·)

/-- Python `re.match` truthiness for the token fragment: the regex is
anchored at the start of the string only, so the whole token list has to
consume some PREFIX of the string; whatever remains of the string after the
tokens are exhausted is ignored. -/
def reTokMatch : List RTok → List Char → Bool
  | [], _ => true
  | RTok.lit c :: ts, x :: xs => x == c && reTokMatch ts xs
  | RTok.dot :: ts, _ :: xs => reTokMatch ts xs
  | RTok.dotStar :: ts, s =>
    reTokMatch ts s ||
      (match s with
       | [] => false
       | _ :: xs => reTokMatch (RTok.dotStar :: ts) xs)
  | _, [] => false
termination_by ts s => (s.length, ts.length)

/-- `s LIKE p` exactly as the generated code evaluates it: build the regex
text, parse it (into the covered fragment), and test `re.match` truthiness
against `s`. -/
def likePy (p s : List Char) : Option Bool :=
  (parseTokens (likeRegexChars p)).map fun ts => reTokMatch ts s

/-- The LIKE semantics the claim describes: case-sensitive, `%` = zero or
more characters, `_` = exactly one character, every other pattern character
is literal (metacharacters escaped, no regex effect), and the match is
anchored on both ends: the whole of `s` has to match. -/
def likeSpec : List Char → List Char → Bool
  | [], [] => true
  | [], _ :: _ => false
  | '%' :: ps, s =>
    likeSpec ps s ||
      (match s with
       | [] => false
       | _ :: xs => likeSpec ('%' :: ps) xs)
  | '_' :: ps, _ :: xs => likeSpec ps xs
  | c :: ps, x :: xs => x == c && likeSpec ps xs
  | _ :: _, [] => false
termination_by p s => (s.length, p.length)

/-- The behavior the code actually implements, said in LIKE terms: `%` = any
sequence, `_` AND `.` = exactly one character (the pattern is not escaped, so
a literal `.` keeps its regex meaning), any other covered character matches
itself, and the match is anchored at the start only: the pattern has to
match some prefix of `s`. -/
def likeAmended : List Char → List Char → Bool
  | [], _ => true
  | '%' :: ps, s =>
    likeAmended ps s ||
      (match s with
       | [] => false
       | _ :: xs => likeAmended ('%' :: ps) xs)
  | c :: ps, x :: xs =>
    if c = '_' || c = '.' then likeAmended ps xs else x == c && likeAmended ps xs
  | _ :: _, [] => false
termination_by p s => (s.length, p.length)

/-- The token list the translation of a metacharacter-free pattern parses
to: `%` becomes `.*`, `_` and `.` become `.`, anything else is literal. -/
def likeTokens (p : List Char) : List RTok :=
  p.map fun c =>
    if c = '%' then RTok.dotStar else if c = '_' || c = '.' then RTok.dot else RTok.lit c

/-! ## Scan (executor.py:122-158) -/

/-- The scan row loop (executor.py:144-157): skip rows failing the filter,
emit the (projected or raw) row, and stop once the sink length reaches the
limit.  A `none` filter is falsy (`if filter_code and not ctx.eval(...)`). -/
def scanEmit (filter : Option (Row → Bool)) (f : Row → Row) (limit : Option Nat)
    (len : Nat) : List Row → List Row
  | [] => []
  | r :: rs =>
    match filter with
    | some c =>
      if c r then
        f r :: (if limitHit limit (len + 1) then [] else scanEmit filter f limit (len + 1) rs)
      else scanEmit filter f limit len rs
    | none =>
      f r :: (if limitHit limit (len + 1) then [] else scanEmit filter f limit (len + 1) rs)

/-- executor.py:122-158 `scan`.  `inCtx` is `context.data_tables[table]` when
the source table is already materialized in the context, `none` otherwise;
`csvRows`/`csvCols` stand for the external `scan_csv` source used in that
case.  Compiled filter and projection units are passed as functions (their
code generation happens before the loop; compile failures are not at issue
in this operator's model).  When the source is in the context and there are
no projections, the source table itself is returned unchanged
(executor.py:129-131).  Otherwise the rows are iterated into a fresh sink
(for the raw-row csv path the sink's columns are the source columns;
executor.py:148-149 creates it lazily, which only differs on an empty
output). -/
def scan (inCtx : Option DataTable) (filter : Option (Row → Bool))
    (projections : List (Row → Val)) (projNames : List String) (limit : Option Nat)
    (csvRows : List Row) (csvCols : List String) : Option DataTable :=
  match inCtx with
  | some t =>
    if projections.isEmpty then some t
    else
      (DataTable.mk0 projNames).addAll
        (scanEmit filter (fun r => projections.map fun f => f r) limit 0 t.rows)
  | none =>
    if projections.isEmpty then
      (DataTable.mk0 csvCols).addAll (scanEmit filter id limit 0 csvRows)
    else
      (DataTable.mk0 projNames).addAll
        (scanEmit filter (fun r => projections.map fun f => f r) limit 0 csvRows)

/-! ## Aggregate (executor.py:277-328) -/

/-- executor.py:277-328 `aggregate`, up to the point where it aborts.  In
source order: code is generated for the group/aggregation/operand
expressions (277-292), the single input table is stably sorted by the group
key tuple (294-295), the operand table is materialized row by row (297-299)
and merged into a fresh context (301) — and then executor.py:302-303 run
`print(context.data_tables)` followed by a bare `raise`, so the function
always throws before the grouping loop at 305-328 can execute. -/
def aggregate (groupKey : Row → List Val) (operands : List (Row → Val))
    (_aggs : List (List Row → Val)) (rows : List Row) : Except Unit (List Row) :=
  let sorted := rows.mergeSort fun r s => lexLe (groupKey r) (groupKey s)
  let _operandTable := sorted.map fun r => operands.map fun f => f r
  Except.error ()

/-- State of the grouping loop at executor.py:305-328: the current group key
(`group`, `None` before the first row), the `[start, stop)` bookkeeping
(`start`, `end`), and the emitted output rows (`sink`). -/
structure AggState where
  group : Option (List Val)
  start : Nat
  stop : Nat
  sink : List (List Val)
  deriving DecidableEq

/-- Evaluate the aggregation expressions over the row range `[s, e)` of the
sorted table (`context.set_range` makes column references yield the value
sequence of that interval; an aggregation unit is a function of it). -/
def aggEvalRange (aggs : List (List Row → Val)) (rows : List Row) (s e : Nat) : List Val :=
  aggs.map fun a => a ((rows.drop s).take (e - s))

/-- One iteration `i` of the grouping loop at executor.py:311-327, kept
branch for branch: note the `if i == length - 1 / elif key != group /
else continue` structure — the final-row branch and the key-change branch
are mutually exclusive, so a key change on the last row emits only one row,
whose range `[start, end-1)` still starts at the previous group's start. -/
def aggLoopStep (gkey : Row → List Val) (aggs : List (List Row → Val))
    (rows : List Row) (st : AggState) (i : Nat) : AggState :=
  let key := gkey (rows.getD i [])
  let group := st.group.getD key
  let stop := st.stop + 1
  if i = rows.length - 1 then
    { group := some key, start := stop - 2, stop := stop,
      sink := st.sink ++ [group ++ aggEvalRange aggs rows st.start (stop - 1)] }
  else if key ≠ group then
    { group := some key, start := stop - 2, stop := stop,
      sink := st.sink ++ [group ++ aggEvalRange aggs rows st.start (stop - 2)] }
  else
    { group := some group, start := st.start, stop := stop, sink := st.sink }

/-- The grouping loop of executor.py:305-328 in isolation (it is unreachable
in the source because of the bare `raise` before it; it is modelled to
document what it would compute).  `rows` is the already-sorted merged
table. -/
def aggregateGroups (gkey : Row → List Val) (aggs : List (List Row → Val))
    (rows : List Row) : List (List Val) :=
  ((List.range rows.length).foldl (aggLoopStep gkey aggs rows)
    { group := none, start := 0, stop := 1, sink := [] }).sink

/-! ## The plan scheduler (executor.py:78-113 `execute_plan`) -/

/-- A query plan for the scheduler: `n` nodes named `0, …, n-1`; `deps i`
lists the dependencies of node `i` (`node.dependencies`); `op i ts` is the
output table the operator dispatch (executor.py:97-106) computes for node
`i` from the ordered list of its dependencies' output tables (the four
operator branches are abstracted — the claim is about scheduling, not about
the operators); `root` names the root node.  `τ` is the table type. -/
structure Plan (τ : Type) where
  n : Nat
  deps : Nat → List Nat
  op : Nat → List τ → τ
  root : Nat

/-- `node.dependents`, derived as the inverse of `deps` (the planner keeps
both directions consistent). -/
def Plan.dependents (p : Plan τ) (i : Nat) : List Nat :=
  (List.range p.n).filter fun j => decide (i ∈ p.deps j)

/-- `plan.leaves`: the nodes with no dependencies. -/
def Plan.leaves (p : Plan τ) : List Nat :=
  (List.range p.n).filter fun i => decide (p.deps i = [])

/-- `contexts[node] = table` recorded functionally. -/
def upd (contexts : Nat → Option τ) (i : Nat) (t : τ) : Nat → Option τ :=
  fun j => if j = i then some t else contexts j

/-- Collect the dependencies' output tables (executor.py:88-92 builds the
node's context from `contexts[dep]`); a missing one is Python's `KeyError`,
modelled `none`. -/
def getDeps (contexts : Nat → Option τ) : List Nat → Option (List τ)
  | [] => some []
  | d :: ds =>
    match contexts d, getDeps contexts ds with
    | some t, some ts => some (t :: ts)
    | _, _ => none

/-- `all(d in contexts for d in dep.dependencies)` (executor.py:109). -/
def Plan.ready (p : Plan τ) (contexts : Nat → Option τ) (d : Nat) : Bool :=
  (p.deps d).all fun x => (contexts x).isSome

/-- The scheduler loop (executor.py:85-110), fuel-indexed: pop the node at
the front of the queue, look up its dependencies' tables, dispatch the
operator, record the output, mark the node running, and enqueue every
dependent that is not yet running and whose dependencies are now all
recorded.  On top of the source's state the model carries `log`, the ghost
list of nodes in execution order.  Each loop iteration marks a previously
unvisited node as running, so any fuel beyond the node count is enough; the
`none` on fuel exhaustion is never reached from `execute_plan`'s call on a
well-formed plan. -/
def execLoop (p : Plan τ) :
    Nat → List Nat → List Nat → (Nat → Option τ) → List Nat →
    Option ((Nat → Option τ) × List Nat)
  | _, [], _, contexts, log => some (contexts, log)
  | 0, _ :: _, _, _, _ => none
  | fuel + 1, node :: queue, running, contexts, log =>
    match getDeps contexts (p.deps node) with
    | none => none
    | some ts =>
      execLoop p fuel
        (queue ++ (p.dependents node).filter fun d =>
          decide (d ∉ node :: running) &&
            p.ready (upd contexts node (p.op node ts)) d)
        (node :: running)
        (upd contexts node (p.op node ts))
        (log ++ [node])

/-- executor.py:78-113 `execute_plan`: run the loop from the leaves and
return the root's recorded output table (`contexts[root]`; a missing entry
is Python's `KeyError`, modelled `none`). -/
def execute_plan (p : Plan τ) : Option τ :=
  match execLoop p (p.n + 1) p.leaves [] (fun _ => none) [] with
  | some (contexts, _) => contexts p.root
  | none => none

/-- A plan packaged with a witness of acyclicity (a rank function decreasing
along dependency edges) and of dependency well-formedness (dependencies are
nodes of the plan) — the §3 plan invariants. -/
structure RankedPlan (τ : Type) extends Plan τ where
  rank : Nat → Nat
  rank_lt : ∀ i, ∀ d ∈ deps i, rank d < rank i
  deps_lt : ∀ i, ∀ d ∈ deps i, d < n

/-- The intended output table of every node: its operator applied to its
dependencies' intended outputs (well-founded by the rank). -/
def denote (p : RankedPlan τ) (i : Nat) : τ :=
  p.op i ((p.deps i).attach.map fun d => denote p d.1)
termination_by p.rank i
decreasing_by exact p.rank_lt i d.1 d.2

/-- Loop invariant of the scheduler, used to prove C3 (ghost statement over
the loop state: queue, running set, recorded outputs, and the ghost
execution log). -/
structure SchedInv (p : RankedPlan τ) (queue running : List Nat)
    (contexts : Nat → Option τ) (log : List Nat) : Prop where
  nodup_log : log.Nodup
  run_iff : ∀ i, i ∈ running ↔ i ∈ log
  ctx_iff : ∀ i, (contexts i).isSome ↔ i ∈ log
  ctx_val : ∀ i t, contexts i = some t → t = denote p i
  log_lt : ∀ i ∈ log, i < p.n
  log_deps : ∀ k, (hk : k < log.length) → ∀ d ∈ p.deps (log.get ⟨k, hk⟩), d ∈ log.take k
  q_nodup : queue.Nodup
  q_lt : ∀ i ∈ queue, i < p.n
  q_fresh : ∀ i ∈ queue, i ∉ log
  q_ready : ∀ i ∈ queue, ∀ d ∈ p.deps i, (contexts d).isSome
  coverage : ∀ i, i < p.n → i ∈ queue ∨ i ∈ log ∨ ∃ d ∈ p.deps i, contexts d = none

/-! ## Concrete test fixtures (used by witnesses and counterexamples) -/

/-- The aggregate scenario's input rows `(g=1,x=10),(g=1,x=20),(g=2,x=5)`. -/
def aggScenarioRows : List Row := [[1, 10], [1, 20], [2, 5]]

/-- Group key for the scenario: the tuple of the single group-by expression
`g` (column 0). -/
def aggScenarioKey : Row → List Val := fun r => [r.getD 0 0]

/-- The scenario's aggregation `SUM(x)`: over a range of rows, the sum of
the sequence of column-1 values (`SUM` is Python `sum`, executor.py:40). -/
def aggScenarioSum : List Row → Val := fun rs => (rs.map fun r => r.getD 1 0).sum

/-- A one-column `DataTable` holding no rows. -/
def oneColTable : DataTable := ⟨[("a", [])], 0⟩

/-- Fixture table A(id, v) with rows (1, 10), (2, 20). -/
def tableA : DataTable := ⟨[("id", [1, 2]), ("v", [10, 20])], 2⟩

/-- Fixture table B(id, w) with row (2, 7). -/
def tableB : DataTable := ⟨[("id", [2]), ("w", [7])], 1⟩

/-- Fixture sort key: value of column 0. -/
def cKey : Row → Int := fun r => r.getD 0 0

/-- Fixture projection list: the single projection `column 0`. -/
def cProjs : List (Row → Val) := [fun r => r.getD 0 0]

/-- Fixture columns for `Context.sort`: table with columns (3,1,2) and
(30,10,20). -/
def cSortCols : List (List Val) := [[3, 1, 2], [30, 10, 20]]

/-- Fixture key for `Context.sort`: the first column's value at the row. -/
def cSortKey : Nat → Int := fun i => ([3, 1, 2] : List Val).getD i 0

/-- Fixture plan: leaves 0 and 1, root node 2 depending on both; the
"operator" sums the node id and its inputs; tables are `Int`. -/
def diamondPlan : RankedPlan Int where
  n := 3
  deps := fun i => if i = 2 then [0, 1] else []
  op := fun i ts => Int.ofNat i + ts.sum
  root := 2
  rank := fun i => i
  rank_lt := by
    intro i d hd
    by_cases h : i = 2
    · subst h
      simp at hd ⊢
      omega
    · simp [h] at hd
  deps_lt := by
    intro i d hd
    by_cases h : i = 2
    · subst h
      simp at hd ⊢
      omega
    · simp [h] at hd

/-! # Claim theorems -/

/-! ## C1 — aggregate -/

/-- C1: the claim says the aggregate operator returns normally and produces one
output row per distinct group key — `[(1,30),(2,5)]` on the scenario input.
The code instead always aborts: executor.py:302-303 run a debug print and a
bare `raise` before the grouping loop, so `aggregate` throws on every input
(first conjunct, evaluated at the scenario input).  Documenting the rest of
the divergence: even the unreachable grouping loop (executor.py:305-328)
would emit `[(1,35)]` on the scenario — its `if i == length-1 / elif key !=
group / else continue` structure folds the final group into the previous one
— not the claimed `[(1,30),(2,5)]`. -/
theorem aggregate_scenario_aborts :
    aggregate aggScenarioKey [] [aggScenarioSum] aggScenarioRows = Except.error () ∧
    aggregateGroups aggScenarioKey [aggScenarioSum] aggScenarioRows = [[1, 35]] ∧
    ([[1, 35]] : List (List Val)) ≠ [[1, 30], [2, 5]] := by
  refine ⟨rfl, by decide, by decide⟩

/-! ## C8 — cast / interval compile-time errors -/

/-- C8: compiling a cast whose target is not DATE, or an interval whose unit
is not DAY, raises at code-generation time, which aborts before any row is
processed (`compileThenRun` never reaches its row loop); `CAST ... AS DATE`
compiles to ISO-8601 date-string parsing, and `INTERVAL n DAY` to a
timedelta of `n` float-coerced days. -/
theorem cast_interval_compile_time (toTy : DType) (unit : List Char) (this : String)
    (run : String → List Row → List Row) (rows : List Row) :
    (toTy ≠ DType.date →
      castPy toTy this = Except.error () ∧
        compileThenRun (castPy toTy this) run rows = Except.error ()) ∧
    castPy DType.date this = Except.ok ("datetime.date.fromisoformat(" ++ this ++ ")") ∧
    (pyUpper unit ≠ ['D', 'A', 'Y'] →
      intervalPy unit this = Except.error () ∧
        compileThenRun (intervalPy unit this) run rows = Except.error ()) ∧
    intervalPy ['D', 'A', 'Y'] this =
      Except.ok ("datetime.timedelta(days=float(" ++ this ++ "))") := by
  refine ⟨?_, rfl, ?_, ?_⟩
  · intro h
    cases toTy
    case date => exact absurd rfl h
    all_goals exact ⟨rfl, rfl⟩
  · intro h
    have he : intervalPy unit this = Except.error () := by
      unfold intervalPy
      rw [if_neg h]
    refine ⟨he, ?_⟩
    rw [he]
    rfl
  · unfold intervalPy
    rw [if_pos (by decide)]

/-- C8 witness: a VARCHAR cast target and a MONTH interval unit both fail at
compile time on concrete inputs. -/
theorem cast_interval_compile_time_witness :
    (DType.varchar ≠ DType.date ∧
      (castPy DType.varchar "x" = Except.error () ∧
        compileThenRun (castPy DType.varchar "x") (fun _ rs => rs) [] = Except.error ())) ∧
    (pyUpper ['M', 'o', 'n', 't', 'h'] ≠ ['D', 'A', 'Y'] ∧
      (intervalPy ['M', 'o', 'n', 't', 'h'] "n" = Except.error () ∧
        compileThenRun (intervalPy ['M', 'o', 'n', 't', 'h'] "n") (fun _ rs => rs) [] =
          Except.error ())) := by
  refine ⟨⟨by decide, ?_⟩, ⟨by decide, ?_⟩⟩
  · exact (cast_interval_compile_time DType.varchar ['M', 'o', 'n', 't', 'h'] "x"
      (fun _ rs => rs) []).1 (by decide)
  · exact (cast_interval_compile_time DType.varchar ['M', 'o', 'n', 't', 'h'] "n"
      (fun _ rs => rs) []).2.2.1 (by decide)

/-! ## C9 — DataTable.add cardinality -/

/-- C9 counterexample: the claim says any row whose value count differs from
the column count fails fatally.  A row with MORE values than columns is
silently accepted: on a one-column table, adding the two-value row `[1, 2]`
succeeds, appends `1`, drops `2` on the floor, and bumps the row counter. -/
theorem dataTable_add_extra_counterexample :
    (([1, 2] : List Val).length ≠ oneColTable.width) ∧
    oneColTable.add [1, 2] = some ⟨[("a", [1])], 1⟩ := by
  exact ⟨by decide, rfl⟩

/-- C9 amended: a row with FEWER values than columns fails fatally
(`row[i]` IndexError); a row with at least as many values as columns is
accepted: each column receives the value at its index (values beyond the
column count are silently ignored) and the row counter increases by one. -/
theorem dataTable_add_amended (t : DataTable) (row : List Val) :
    (row.length < t.width → t.add row = none) ∧
    (t.width ≤ row.length → ∃ t2, t.add row = some t2 ∧
      t2.length = t.length + 1 ∧ t2.width = t.width ∧
      ∀ i, i < t.width →
        t2.table.getD i ("", []) =
          ((t.table.getD i ("", [])).1,
            (t.table.getD i ("", [])).2 ++ [row.getD i 0])) := by
  constructor
  · intro h
    unfold DataTable.add
    rw [if_neg (by omega)]
  · intro h
    have h' : t.table.length ≤ row.length := h
    refine ⟨_, by unfold DataTable.add; rw [if_pos h], rfl, ?_, ?_⟩
    · show (t.table.zipWith (fun p v => (p.1, p.2 ++ [v])) (row.take t.width)).length =
        t.table.length
      rw [List.length_zipWith, List.length_take]
      show min t.table.length (min t.table.length row.length) = t.table.length
      omega
    · intro i hi
      have hiw : i < t.table.length := hi
      have hirow : i < row.length := lt_of_lt_of_le hi h
      have hz : i < (t.table.zipWith (fun p v => (p.1, p.2 ++ [v])) (row.take t.width)).length := by
        rw [List.length_zipWith, List.length_take]
        show i < min t.table.length (min t.table.length row.length)
        omega
      rw [List.getD_eq_getElem _ _ hz, List.getD_eq_getElem _ _ hiw,
        List.getD_eq_getElem _ _ hirow]
      rw [List.getElem_zipWith]
      rw [List.getElem_take]

/-- C9 amended witness: adding a one-value row to a one-column table. -/
theorem dataTable_add_amended_witness :
    oneColTable.width ≤ ([5] : List Val).length ∧
    (∃ t2, oneColTable.add [5] = some t2 ∧
      t2.length = oneColTable.length + 1 ∧ t2.width = oneColTable.width ∧
      ∀ i, i < oneColTable.width →
        t2.table.getD i ("", []) =
          ((oneColTable.table.getD i ("", [])).1,
            (oneColTable.table.getD i ("", [])).2 ++ [([5] : List Val).getD i 0])) :=
  ⟨by decide, (dataTable_add_amended oneColTable [5]).2 (by decide)⟩

/-! ## C10 — scan zero-copy path -/

/-- C10: when the scan's source table is materialized in the context and the
projection list is empty, scan returns the source table itself unchanged,
and whatever filter or limit the step carries has no effect on this path
(the result does not depend on them). -/
theorem scan_zero_copy (t : DataTable) (filter : Option (Row → Bool))
    (projNames : List String) (limit : Option Nat) (csvRows : List Row)
    (csvCols : List String) :
    scan (some t) filter [] projNames limit csvRows csvCols = some t := rfl

/-! ## C6 — sort + limit -/

theorem emitRows_none (f : Row → Row) (len : Nat) (rows : List Row) :
    emitRows f none len rows = rows.map f := by
  induction rows generalizing len with
  | nil => rfl
  | cons r rs ih => simp [emitRows, limitHit, ih]

theorem emitRows_zero (f : Row → Row) (len : Nat) (rows : List Row) :
    emitRows f (some 0) len rows = rows.map f := by
  induction rows generalizing len with
  | nil => rfl
  | cons r rs ih => simp [emitRows, limitHit, ih]

theorem emitRows_take (f : Row → Row) (k : Nat) (hk : k ≠ 0) (rows : List Row) :
    ∀ len, len < k → emitRows f (some k) len rows = (rows.map f).take (k - len) := by
  induction rows with
  | nil => intro len _; simp [emitRows]
  | cons r rs ih =>
    intro len hlen
    rw [emitRows]
    have hk1 : k - len = (k - (len + 1)) + 1 := by omega
    rw [List.map_cons, hk1, List.take_succ_cons]
    by_cases h : k ≤ len + 1
    · have hh : limitHit (some k) (len + 1) = true := by
        simp [limitHit, hk, h]
      rw [if_pos hh]
      have : k - (len + 1) = 0 := by omega
      rw [this, List.take_zero]
    · have hh : limitHit (some k) (len + 1) = false := by
        simp [limitHit, h]
      rw [if_neg (by simp [hh])]
      exact congrArg _ (ih (len + 1) (by omega))

/-- C6 counterexample: the claim quantifies over every limit `k ≤` row count,
but for `k = 0` the output is the whole projected table, not the first `0`
rows — Python truthiness makes a limit of `0` behave as "no limit"
(executor.py:344 `if step.limit and ...`). -/
theorem sort_limit_zero_counterexample :
    sortStep cKey cProjs (some 0) [[5]] ≠ (sortStep cKey cProjs none [[5]]).take 0 := by
  have hs : pySortBy cKey [[5]] = [[5]] := List.mergeSort_singleton _
  unfold sortStep
  rw [hs, emitRows_zero, emitRows_none, List.take_zero]
  simp

/-- C6 amended: for every limit `1 ≤ k`, the Sort operator's output is the
first `k` rows of the fully sorted projected output (hence all of it when
`k` exceeds the row count); with the limit unset — or set to `0`, which
Python truthiness treats as unset — the output is the full sorted projected
set. -/
theorem sort_limit_amended (key : Row → Int) (projs : List (Row → Val))
    (rows : List Row) (k : Nat) (hk : 1 ≤ k) :
    sortStep key projs (some k) rows = (sortStep key projs none rows).take k ∧
    sortStep key projs none rows =
      (pySortBy key rows).map (fun r => projs.map fun f => f r) ∧
    sortStep key projs (some 0) rows = sortStep key projs none rows := by
  unfold sortStep
  refine ⟨?_, emitRows_none _ _ _, ?_⟩
  · rw [emitRows_none, emitRows_take _ k (by omega) _ 0 (by omega), Nat.sub_zero]
  · rw [emitRows_none, emitRows_zero]

/-- C6 witness: the amended statement applied at limit 1 on a one-row table. -/
theorem sort_limit_amended_witness :
    (1 ≤ 1) ∧
    (sortStep cKey cProjs (some 1) [[5]] = (sortStep cKey cProjs none [[5]]).take 1 ∧
      sortStep cKey cProjs none [[5]] =
        (pySortBy cKey [[5]]).map (fun r => cProjs.map fun f => f r) ∧
      sortStep cKey cProjs (some 0) [[5]] = sortStep cKey cProjs none [[5]]) :=
  ⟨le_refl 1, sort_limit_amended cKey cProjs [[5]] 1 (le_refl 1)⟩

/-! ## C4 — nested-loop (cross) join -/

theorem pyDictKeys_length_le (l : List String) : (pyDictKeys l).length ≤ l.length := by
  induction l using pyDictKeys.induct with
  | case1 => simp [pyDictKeys]
  | case2 c cs ih =>
    rw [pyDictKeys]
    have := List.length_filter_le (fun d => decide (d ≠ c)) cs
    simp only [List.length_cons]
    omega

theorem pyDictKeys_mem (l : List String) (x : String) : x ∈ pyDictKeys l ↔ x ∈ l := by
  induction l using pyDictKeys.induct with
  | case1 => simp [pyDictKeys]
  | case2 c cs ih =>
    rw [pyDictKeys]
    simp only [List.mem_cons, ih, List.mem_filter]
    constructor
    · rintro (h | ⟨h, _⟩)
      · exact Or.inl h
      · exact Or.inr h
    · rintro (h | h)
      · exact Or.inl h
      · by_cases hc : x = c
        · exact Or.inl hc
        · exact Or.inr ⟨h, by simpa using hc⟩

theorem nestedLoopPairs_length (la : List α) (lb : List β) :
    (nestedLoopPairs la lb).length = la.length * lb.length := by
  induction la with
  | nil => simp [nestedLoopPairs]
  | cons x xs ih =>
    simp only [nestedLoopPairs, List.flatMap_cons, List.length_append, List.length_map,
      List.length_cons] at *
    rw [ih]
    ring

theorem tupleAt_length (t : DataTable) (i : Nat) : (t.tupleAt i).length = t.width := by
  simp [DataTable.tupleAt, DataTable.width]

theorem zipWith_fst_map (l : List (String × List Val)) (r : List Val)
    (h : l.length ≤ r.length) :
    (l.zipWith (fun p v => (p.1, p.2 ++ [v])) r).map Prod.fst = l.map Prod.fst := by
  induction l generalizing r with
  | nil => simp
  | cons p ps ih =>
    cases r with
    | nil => simp at h
    | cons v vs =>
      simp only [List.zipWith_cons_cons, List.map_cons]
      rw [ih vs (by simpa using h)]

theorem dataTable_add_some (t : DataTable) (row : List Val) (h : t.width ≤ row.length) :
    ∃ t2, t.add row = some t2 ∧ t2.length = t.length + 1 ∧ t2.width = t.width ∧
      t2.table.map Prod.fst = t.table.map Prod.fst := by
  refine ⟨_, by unfold DataTable.add; rw [if_pos h], rfl, ?_, ?_⟩
  · show (t.table.zipWith (fun p v => (p.1, p.2 ++ [v])) (row.take t.width)).length =
      t.table.length
    rw [List.length_zipWith, List.length_take]
    show min t.table.length (min t.table.length row.length) = t.table.length
    have h' : t.table.length ≤ row.length := h
    omega
  · exact zipWith_fst_map _ _ (by rw [List.length_take]; exact le_min (le_refl _) h)

theorem dataTable_addAll_some (rows : List Row) :
    ∀ t : DataTable, (∀ r ∈ rows, t.width ≤ r.length) →
      ∃ t2, t.addAll rows = some t2 ∧ t2.length = t.length + rows.length ∧
        t2.width = t.width ∧ t2.table.map Prod.fst = t.table.map Prod.fst := by
  induction rows with
  | nil => intro t _; exact ⟨t, rfl, rfl, rfl, rfl⟩
  | cons r rs ih =>
    intro t hw
    obtain ⟨t1, hadd, hlen, hwid, hfst⟩ := dataTable_add_some t r (hw r (by simp))
    obtain ⟨t2, hall, hlen2, hwid2, hfst2⟩ := ih t1 (by
      intro s hs
      rw [hwid]
      exact hw s (by simp [hs]))
    refine ⟨t2, ?_, ?_, ?_, ?_⟩
    · show (r :: rs).foldlM DataTable.add t = some t2
      rw [List.foldlM_cons, hadd]
      simpa [DataTable.addAll] using hall
    · rw [hlen2, hlen]; simp only [List.length_cons]; omega
    · rw [hwid2, hwid]
    · rw [hfst2, hfst]

theorem mem_nestedLoopPairs {la : List α} {lb : List β} {p : α × β}
    (hp : p ∈ nestedLoopPairs la lb) : p.1 ∈ la ∧ p.2 ∈ lb := by
  unfold nestedLoopPairs at hp
  rw [List.mem_flatMap] at hp
  obtain ⟨x, hx, hmem⟩ := hp
  rw [List.mem_map] at hmem
  obtain ⟨y, hy, hxy⟩ := hmem
  cases hxy
  exact ⟨hx, hy⟩

theorem mem_rows_length {t : DataTable} {r : Row} (h : r ∈ t.rows) :
    r.length = t.width := by
  unfold DataTable.rows at h
  rw [List.mem_map] at h
  obtain ⟨i, _, rfl⟩ := h
  exact tupleAt_length t i

theorem mk0_width (cols : List String) :
    (DataTable.mk0 cols).width = (pyDictKeys cols).length := by
  simp [DataTable.mk0, DataTable.width]

theorem mk0_fst (cols : List String) :
    (DataTable.mk0 cols).table.map Prod.fst = pyDictKeys cols := by
  show ((pyDictKeys cols).map fun c => (c, ([] : List Val))).map Prod.fst = pyDictKeys cols
  rw [List.map_map]
  exact List.map_id _

theorem rows_count (t : DataTable) : t.rows.length = t.length := by
  simp [DataTable.rows]

/-- C4: the cross (nested-loop) join always succeeds with exactly
`|A| × |B|` output rows, and its output column set is the union of both
sides' column sets.  The hypotheses are the §3 table invariant (every
column's length equals the row counter), under which the model's row reads
match Python's. -/
theorem nested_loop_join_cardinality (A B : DataTable)
    (hA : ∀ p ∈ A.table, p.2.length = A.length)
    (hB : ∀ p ∈ B.table, p.2.length = B.length) :
    ∃ T, nested_loop_join A B = some T ∧
      T.length = A.length * B.length ∧
      (T.table.map Prod.fst).toFinset =
        (A.table.map Prod.fst).toFinset ∪ (B.table.map Prod.fst).toFinset := by
  have hw : ∀ r ∈ (nestedLoopPairs A.rows B.rows).map (fun p => p.1 ++ p.2),
      (DataTable.mk0 (A.table.map Prod.fst ++ B.table.map Prod.fst)).width ≤ r.length := by
    intro r hr
    rw [List.mem_map] at hr
    obtain ⟨p, hp, rfl⟩ := hr
    obtain ⟨h1, h2⟩ := mem_nestedLoopPairs hp
    rw [List.length_append, mem_rows_length h1, mem_rows_length h2, mk0_width]
    calc (pyDictKeys (A.table.map Prod.fst ++ B.table.map Prod.fst)).length
        ≤ (A.table.map Prod.fst ++ B.table.map Prod.fst).length := pyDictKeys_length_le _
      _ = A.width + B.width := by simp [DataTable.width]
  obtain ⟨T, hT, hlen, _, hfst⟩ := dataTable_addAll_some
    ((nestedLoopPairs A.rows B.rows).map fun p => p.1 ++ p.2)
    (DataTable.mk0 (A.table.map Prod.fst ++ B.table.map Prod.fst)) hw
  refine ⟨T, hT, ?_, ?_⟩
  · rw [hlen, List.length_map, nestedLoopPairs_length, rows_count, rows_count]
    simp [DataTable.mk0]
  · rw [hfst, mk0_fst]
    ext x
    simp only [List.mem_toFinset, Finset.mem_union, pyDictKeys_mem, List.mem_append]

/-- C4 witness: the join of the 2-row table A(id,v) and the 1-row table
B(id,w). -/
theorem nested_loop_join_cardinality_witness :
    (∀ p ∈ tableA.table, p.2.length = tableA.length) ∧
    (∀ p ∈ tableB.table, p.2.length = tableB.length) ∧
    ∃ T, nested_loop_join tableA tableB = some T ∧
      T.length = tableA.length * tableB.length ∧
      (T.table.map Prod.fst).toFinset =
        (tableA.table.map Prod.fst).toFinset ∪ (tableB.table.map Prod.fst).toFinset :=
  ⟨by decide, by decide,
    nested_loop_join_cardinality tableA tableB (by decide) (by decide)⟩

/-! ## C7 — Context.sort is a stable permutation applied to every column -/

theorem pair_sublist_range {v u n : Nat} (h1 : v < u) (h2 : u < n) :
    List.Sublist [v, u] (List.range n) := by
  have h3 : List.Sublist ([v] ++ [u]) (List.range u ++ [u]) :=
    List.Sublist.append (by rw [List.singleton_sublist]; exact List.mem_range.mpr h1)
      (List.Sublist.refl [u])
  have h4 : List.range u ++ [u] = List.range (u + 1) := (List.range_succ u).symm
  rw [h4] at h3
  exact h3.trans (List.range_sublist.mpr h2)

theorem pair_sublist_exists_getElem {x y : α} :
    ∀ {l : List α}, List.Sublist [x, y] l →
      ∃ p q, ∃ hp : p < l.length, ∃ hq : q < l.length,
        p < q ∧ l[p] = x ∧ l[q] = y := by
  intro l
  induction l with
  | nil => intro h; cases h
  | cons c l' ih =>
    intro h
    cases h with
    | cons a h' =>
      obtain ⟨p, q, hp, hq, hpq, hx, hy⟩ := ih h'
      exact ⟨p + 1, q + 1, by simpa using hp, by simpa using hq, by omega, hx, hy⟩
    | cons₂ a h' =>
      have hy : y ∈ l' := List.singleton_sublist.mp h'
      obtain ⟨q, hq, hyq⟩ := List.getElem_of_mem hy
      exact ⟨0, q + 1, by simp, by simpa using hq, by omega, rfl, by simpa using hyq⟩

theorem sortIndex_perm (n : Nat) (key : Nat → Int) :
    (sortIndex n key).Perm (List.range n) :=
  List.mergeSort_perm (List.range n) _

theorem sortIndex_nodup (n : Nat) (key : Nat → Int) : (sortIndex n key).Nodup :=
  ((sortIndex_perm n key).nodup_iff).mpr (List.nodup_range n)

theorem sortIndex_mem_lt (n : Nat) (key : Nat → Int) {i : Nat}
    (h : i ∈ sortIndex n key) : i < n :=
  List.mem_range.mp ((sortIndex_perm n key).mem_iff.mp h)

theorem sortIndex_sorted (n : Nat) (key : Nat → Int) :
    (sortIndex n key).Pairwise fun i j => key i ≤ key j := by
  have h := @List.sorted_mergeSort Nat (fun i j => decide (key i ≤ key j))
    (fun a b c hab hbc => by
      simp only [decide_eq_true_eq] at *
      omega)
    (fun a b => by simpa using le_total (key a) (key b))
    (List.range n)
  exact h.imp fun hab => by simpa using hab

/-- Stability of the index sort: among equal keys the original index order
(the row order before sorting) is preserved. -/
theorem sortIndex_stable (n : Nat) (key : Nat → Int) :
    (sortIndex n key).Pairwise fun i j => key i = key j → i < j := by
  rw [List.pairwise_iff_getElem]
  intro a b ha hb hab heq
  by_contra hge
  have hne : (sortIndex n key)[a] ≠ (sortIndex n key)[b] := by
    intro hcontra
    have := ((sortIndex_nodup n key).getElem_inj_iff).mp hcontra
    omega
  have hvu : (sortIndex n key)[b] < (sortIndex n key)[a] := by
    rcases lt_trichotomy ((sortIndex n key)[a]) ((sortIndex n key)[b]) with h | h | h
    · omega
    · exact absurd h hne
    · exact h
  have hun : (sortIndex n key)[a] < n :=
    sortIndex_mem_lt n key (List.getElem_mem ha)
  have hsub : List.Sublist [(sortIndex n key)[b], (sortIndex n key)[a]] (List.range n) :=
    pair_sublist_range hvu hun
  have hle : (fun i j => decide (key i ≤ key j)) ((sortIndex n key)[b])
      ((sortIndex n key)[a]) = true := by
    simp only [decide_eq_true_eq]
    omega
  have hpair : List.Sublist [(sortIndex n key)[b], (sortIndex n key)[a]] (sortIndex n key) :=
    List.pair_sublist_mergeSort
      (fun a b c hab hbc => by
        simp only [decide_eq_true_eq] at *
        omega)
      (fun a b => by simpa using le_total (key a) (key b))
      hle hsub
  obtain ⟨p, q, hp, hq, hpq, hxp, hyq⟩ := pair_sublist_exists_getElem hpair
  have hpb : p = b := ((sortIndex_nodup n key).getElem_inj_iff).mp hxp
  have hqa : q = a := ((sortIndex_nodup n key).getElem_inj_iff).mp hyq
  omega

/-- C7: `Context.sort` computes one stable index permutation of `0, …, n-1`
and applies it to every column: the index list is a permutation of the row
indices, every column is rebuilt by that single list (so the multiset of
rows is preserved: the row tuples after sorting are a permutation of the
row tuples before), equal-key rows keep their original relative order, and
every output column has length `n` again.  The hypothesis is the §3 table
invariant under which the model's row reads match Python's. -/
theorem context_sort_stable (n : Nat) (key : Nat → Int) (cols : List (List Val))
    (hlen : ∀ c ∈ cols, c.length = n) :
    (sortIndex n key).Perm (List.range n) ∧
    contextSort n key cols =
      cols.map (fun c => (sortIndex n key).map fun i => c.getD i 0) ∧
    (sortIndex n key).Pairwise
      (fun i j => key i ≤ key j ∧ (key i = key j → i < j)) ∧
    ((List.range n).map fun j => (contextSort n key cols).map fun c => c.getD j 0).Perm
      ((List.range n).map fun j => cols.map fun c => c.getD j 0) ∧
    ∀ c ∈ contextSort n key cols, c.length = n := by
  have hlength : (sortIndex n key).length = n := by
    rw [(sortIndex_perm n key).length_eq, List.length_range]
  refine ⟨sortIndex_perm n key, rfl, ?_, ?_, ?_⟩
  · have h1 := sortIndex_sorted n key
    have h2 := sortIndex_stable n key
    exact List.Pairwise.and h1 h2
  · have hmap : ((List.range n).map fun j =>
        (contextSort n key cols).map fun c => c.getD j 0) =
        (sortIndex n key).map fun i => cols.map fun c => c.getD i 0 := by
      apply List.ext_getElem
      · simp [hlength]
      · intro j h1 h2
        have hj : j < n := by simpa using h1
        have hj2 : j < (sortIndex n key).length := by omega
        rw [List.getElem_map, List.getElem_map, List.getElem_range]
        unfold contextSort
        rw [List.map_map]
        apply List.map_congr_left
        intro c _
        show ((sortIndex n key).map fun i => c.getD i 0).getD j 0 = _
        rw [List.getD_eq_getElem _ _ (by simpa [hlength] using hj), List.getElem_map]
    rw [hmap]
    exact ((sortIndex_perm n key).map _)
  · intro c hc
    unfold contextSort at hc
    rw [List.mem_map] at hc
    obtain ⟨c0, _, rfl⟩ := hc
    simp [hlength]

/-- C7 witness: the three-row, two-column fixture table. -/
theorem context_sort_stable_witness :
    (∀ c ∈ cSortCols, c.length = 3) ∧
    ((sortIndex 3 cSortKey).Perm (List.range 3) ∧
      contextSort 3 cSortKey cSortCols =
        cSortCols.map (fun c => (sortIndex 3 cSortKey).map fun i => c.getD i 0) ∧
      (sortIndex 3 cSortKey).Pairwise
        (fun i j => cSortKey i ≤ cSortKey j ∧ (cSortKey i = cSortKey j → i < j)) ∧
      ((List.range 3).map fun j =>
          (contextSort 3 cSortKey cSortCols).map fun c => c.getD j 0).Perm
        ((List.range 3).map fun j => cSortCols.map fun c => c.getD j 0) ∧
      ∀ c ∈ contextSort 3 cSortKey cSortCols, c.length = 3) :=
  ⟨by decide, context_sort_stable 3 cSortKey cSortCols (by decide)⟩

/-! ## C5 — LIKE -/

theorem likeRegexChars_cons (c : Char) (cs : List Char) :
    likeRegexChars (c :: cs) =
      (if (if c = '_' then '.' else c) = '%' then ['.', '*']
        else [if c = '_' then '.' else c]) ++ likeRegexChars cs := by
  simp [likeRegexChars]

theorem likeRegexChars_head_ne_star (cs : List Char)
    (h : ∀ c ∈ cs, specialChar c = false) :
    (likeRegexChars cs).head? ≠ some '*' := by
  cases cs with
  | nil => simp [likeRegexChars]
  | cons d ds =>
    have hd : specialChar d = false := h d (by simp)
    have hds : d ≠ '*' := by
      intro hcontra
      subst hcontra
      simp [specialChar] at hd
    rw [likeRegexChars_cons]
    by_cases h1 : d = '_'
    · simp [h1]
    · by_cases h2 : d = '%'
      · simp [h1, h2]
      · simp [h1, h2, hds]

theorem likeRegexChars_eq_nil (cs : List Char) (h : likeRegexChars cs = []) :
    cs = [] := by
  cases cs with
  | nil => rfl
  | cons d ds =>
    exfalso
    rw [likeRegexChars_cons] at h
    rcases List.append_eq_nil.mp h with ⟨h1, _⟩
    by_cases hd1 : d = '_'
    · simp [hd1] at h1
    · by_cases hd2 : d = '%'
      · simp [hd1, hd2] at h1
      · simp [hd1, hd2] at h1

theorem parse_likeRegexChars (p : List Char) (hp : ∀ c ∈ p, specialChar c = false) :
    parseTokens (likeRegexChars p) = some (likeTokens p) := by
  induction p with
  | nil => rfl
  | cons c cs ih =>
    have hc : specialChar c = false := hp c (by simp)
    have hcs : ∀ d ∈ cs, specialChar d = false := fun d hd => hp d (by simp [hd])
    have ihcs := ih hcs
    have hstar : (likeRegexChars cs).head? ≠ some '*' :=
      likeRegexChars_head_ne_star cs hcs
    by_cases h1 : c = '%'
    · subst h1
      have he : likeRegexChars ('%' :: cs) = '.' :: '*' :: likeRegexChars cs := by
        rw [likeRegexChars_cons]; simp
      have ht : likeTokens ('%' :: cs) = RTok.dotStar :: likeTokens cs := by
        simp [likeTokens]
      rw [he, ht, parseTokens]
      simp [ihcs]
    · by_cases h2 : c = '_'
      · subst h2
        have he : likeRegexChars ('_' :: cs) = '.' :: likeRegexChars cs := by
          rw [likeRegexChars_cons]; simp
        have ht : likeTokens ('_' :: cs) = RTok.dot :: likeTokens cs := by
          simp [likeTokens]
        rw [he, ht]
        rcases hL : likeRegexChars cs with _ | ⟨h0, t0⟩
        · have hnil : cs = [] := likeRegexChars_eq_nil cs hL
          subst hnil
          rfl
        · have h0ne : h0 ≠ '*' := by
            intro hcontra
            apply hstar
            rw [hL, hcontra]
            rfl
          rw [parseTokens, if_pos rfl, if_neg h0ne, ← hL, ihcs]
          rfl
      · by_cases h3 : c = '.'
        · subst h3
          have he : likeRegexChars ('.' :: cs) = '.' :: likeRegexChars cs := by
            rw [likeRegexChars_cons]; simp
          have ht : likeTokens ('.' :: cs) = RTok.dot :: likeTokens cs := by
            simp [likeTokens]
          rw [he, ht]
          rcases hL : likeRegexChars cs with _ | ⟨h0, t0⟩
          · have hnil : cs = [] := likeRegexChars_eq_nil cs hL
            subst hnil
            rfl
          · have h0ne : h0 ≠ '*' := by
              intro hcontra
              apply hstar
              rw [hL, hcontra]
              rfl
            rw [parseTokens, if_pos rfl, if_neg h0ne, ← hL, ihcs]
            rfl
        · have he : likeRegexChars (c :: cs) = c :: likeRegexChars cs := by
            rw [likeRegexChars_cons]
            rw [if_neg h2, if_neg h1]
            rfl
          have hcond : ¬ (decide (c = '_') || decide (c = '.')) = true := by
            simp [h2, h3]
          have ht : likeTokens (c :: cs) = RTok.lit c :: likeTokens cs := by
            simp only [likeTokens, List.map_cons]
            rw [if_neg h1, if_neg hcond]
          rw [he, ht]
          rcases hL : likeRegexChars cs with _ | ⟨h0, t0⟩
          · have hnil : cs = [] := likeRegexChars_eq_nil cs hL
            subst hnil
            rw [parseTokens, if_neg h3, if_neg (by simp [hc])]
            rfl
          · rw [parseTokens, if_neg h3, if_neg (by simp [hc]), ← hL, ihcs]
            rfl

theorem reTokMatch_likeTokens (p s : List Char) :
    reTokMatch (likeTokens p) s = likeAmended p s := by
  induction p, s using likeAmended.induct with
  | case1 x => simp [likeTokens, reTokMatch, likeAmended]
  | case2 ps s ih1 ih2 =>
    have hts : likeTokens ('%' :: ps) = RTok.dotStar :: likeTokens ps := by
      simp [likeTokens]
    cases s with
    | nil =>
      rw [hts, reTokMatch, likeAmended]
      simp [ih1]
    | cons x xs =>
      have ih2d : reTokMatch (RTok.dotStar :: likeTokens ps) xs =
          likeAmended ('%' :: ps) xs := by
        rw [← hts]
        exact ih2
      rw [hts, reTokMatch, likeAmended]
      simp [ih1, ih2d]
  | case3 c ps x xs hne hcond ih =>
    have hne2 : ¬ c = '%' := hne
    have hts : likeTokens (c :: ps) = RTok.dot :: likeTokens ps := by
      simp only [likeTokens, List.map_cons]
      rw [if_neg hne2, if_pos hcond]
    rw [hts, reTokMatch]
    simp only [likeAmended, hne2]
    rw [if_pos hcond]
    exact ih
  | case4 c ps x xs hne hcond ih =>
    have hne2 : ¬ c = '%' := hne
    have hts : likeTokens (c :: ps) = RTok.lit c :: likeTokens ps := by
      simp only [likeTokens, List.map_cons]
      rw [if_neg hne2, if_neg hcond]
    rw [hts, reTokMatch]
    simp only [likeAmended, hne2]
    rw [if_neg hcond, ih]
  | case5 hd tl hne =>
    have hne2 : ¬ hd = '%' := hne
    by_cases hcond : (decide (hd = '_') || decide (hd = '.')) = true
    · have hts : likeTokens (hd :: tl) = RTok.dot :: likeTokens tl := by
        simp only [likeTokens, List.map_cons]
        rw [if_neg hne2, if_pos hcond]
      rw [hts]
      simp [reTokMatch, likeAmended, hne2]
    · have hts : likeTokens (hd :: tl) = RTok.lit hd :: likeTokens tl := by
        simp only [likeTokens, List.map_cons]
        rw [if_neg hne2, if_neg hcond]
      rw [hts]
      simp [reTokMatch, likeAmended, hne2]

/-- C5 counterexample: the claim says LIKE escapes the pattern's literal text
and anchors the match to the whole string.  The generated code calls
`re.match` on the UNESCAPED translated pattern: LIKE pattern `a` matches the
string `ab` (anchored at the start only — a prefix match), and pattern
`a.b` matches `axb` (the `.` keeps its regex any-character meaning).  Under
the claim's semantics (`likeSpec`) both are non-matches. -/
theorem like_py_counterexample :
    likePy ['a'] ['a', 'b'] = some true ∧
    likeSpec ['a'] ['a', 'b'] = false ∧
    likePy ['a', '.', 'b'] ['a', 'x', 'b'] = some true ∧
    likeSpec ['a', '.', 'b'] ['a', 'x', 'b'] = false := by
  refine ⟨?_, ?_, ?_, ?_⟩
  · have hparse : parseTokens (likeRegexChars ['a']) = some [RTok.lit 'a'] := by decide
    simp [likePy, hparse, reTokMatch]
  · simp [likeSpec]
  · have hparse : parseTokens (likeRegexChars ['a', '.', 'b']) =
        some [RTok.lit 'a', RTok.dot, RTok.lit 'b'] := by decide
    simp [likePy, hparse, reTokMatch]
  · simp [likeSpec]

/-- C5 amended: `s LIKE p` (for a pattern inside the modelled regex fragment)
evaluates as follows: `%` matches zero or more characters and `_` exactly
one, but the pattern text is NOT escaped — a `.` in the pattern also matches
exactly one arbitrary character (and other regex metacharacters keep their
regex meaning, outside this model's fragment) — and the match is anchored at
the start only: the result is truthy iff the pattern matches some PREFIX of
`s`.  `likeAmended` is that prefix-matching semantics. -/
theorem like_py_amended (p s : List Char) (hp : ∀ c ∈ p, specialChar c = false) :
    likePy p s = some (likeAmended p s) := by
  unfold likePy
  rw [parse_likeRegexChars p hp]
  simp [reTokMatch_likeTokens]

/-- C5 witness: `ab` LIKE `a%` is truthy (prefix semantics agrees with the
amended statement on this input). -/
theorem like_py_amended_witness :
    (∀ c ∈ ['a', '%'], specialChar c = false) ∧
    likePy ['a', '%'] ['a', 'b'] = some (likeAmended ['a', '%'] ['a', 'b']) :=
  ⟨by decide, like_py_amended ['a', '%'] ['a', 'b'] (by decide)⟩

/-! ## C2 — sort-merge join vs nested-loop join -/

theorem pySortBy_perm (key : α → Int) (l : List α) : (pySortBy key l).Perm l :=
  List.mergeSort_perm l _

theorem pySortBy_sorted (key : α → Int) (l : List α) :
    (pySortBy key l).Pairwise fun x y => key x ≤ key y := by
  have h := @List.sorted_mergeSort α (fun x y => decide (key x ≤ key y))
    (fun a b c hab hbc => by
      simp only [decide_eq_true_eq] at *
      omega)
    (fun a b => by simpa using le_total (key a) (key b))
    l
  exact h.imp fun hab => by simpa using hab

/-- Every pair the merge loop emits carries equal keys on both sides: each
emitted pair comes from the cross product of two groups that were collected
by the same `key == get_key(...)` test. -/
theorem mergeJoin_keys (ka : α → Int) (kb : β → Int) (la : List α) (lb : List β) :
    ∀ q ∈ mergeJoin ka kb la lb, ka q.1 = kb q.2 := by
  induction la, lb using mergeJoin.induct ka kb with
  | case1 lb => simp [mergeJoin]
  | case2 x xs => simp [mergeJoin]
  | case3 x xs y ys ih =>
    intro q hq
    rw [mergeJoin] at hq
    rcases List.mem_append.mp hq with hq | hq
    · obtain ⟨h1, h2⟩ := mem_nestedLoopPairs hq
      have k1 : ka q.1 = min (ka x) (kb y) := by
        simpa using List.mem_takeWhile_imp h1
      have k2 : kb q.2 = min (ka x) (kb y) := by
        simpa using List.mem_takeWhile_imp h2
      rw [k1, k2]
    · exact ih q hq

/-- Every row surviving `dropWhile (key r = key)` on a key-sorted list whose
keys are all at least `key` has a strictly larger key. -/
theorem dropWhile_key_gt (k : α → Int) (key : Int) :
    ∀ l : List α, l.Pairwise (fun r s => k r ≤ k s) → (∀ r ∈ l, key ≤ k r) →
      ∀ r ∈ l.dropWhile (fun r => decide (k r = key)), key < k r := by
  intro l
  induction l with
  | nil =>
    intro _ _ r hr
    simp at hr
  | cons a l ih =>
    intro hp hlb r hr
    rw [List.dropWhile_cons] at hr
    by_cases ha : k a = key
    · rw [if_pos (by simpa using ha)] at hr
      exact ih (List.Pairwise.of_cons hp) (fun s hs => hlb s (List.mem_cons_of_mem a hs)) r hr
    · rw [if_neg (by simpa using ha)] at hr
      rcases List.mem_cons.mp hr with rfl | hmem
      · exact lt_of_le_of_ne (hlb r (List.mem_cons_self _ _)) fun h => ha h.symm
      · have h1 : key < k a :=
          lt_of_le_of_ne (hlb a (List.mem_cons_self _ _)) fun h => ha h.symm
        have h2 : k a ≤ k r := (List.pairwise_cons.mp hp).1 r hmem
        omega

theorem nestedLoopPairs_append_left (l1 l2 : List α) (lb : List β) :
    nestedLoopPairs (l1 ++ l2) lb = nestedLoopPairs l1 lb ++ nestedLoopPairs l2 lb := by
  simp [nestedLoopPairs]

theorem countP_nestedLoopPairs_right (P : α × β → Bool) (la : List α) (m1 m2 : List β) :
    (nestedLoopPairs la (m1 ++ m2)).countP P =
      (nestedLoopPairs la m1).countP P + (nestedLoopPairs la m2).countP P := by
  induction la with
  | nil => simp [nestedLoopPairs]
  | cons x xs ih =>
    simp only [nestedLoopPairs, List.flatMap_cons, List.map_append, List.countP_append] at *
    omega

theorem cnt_all_match (ka : α → Int) (kb : β → Int) (key : Int) (l1 : List α) (m1 : List β)
    (h1 : ∀ r ∈ l1, ka r = key) (h2 : ∀ r ∈ m1, kb r = key) :
    ((nestedLoopPairs l1 m1).countP fun q => decide (ka q.1 = kb q.2)) =
      l1.length * m1.length := by
  rw [← nestedLoopPairs_length l1 m1]
  rw [List.countP_eq_length]
  intro q hq
  obtain ⟨hq1, hq2⟩ := mem_nestedLoopPairs hq
  simp [h1 q.1 hq1, h2 q.2 hq2]

theorem cnt_no_match (ka : α → Int) (kb : β → Int) (l1 : List α) (m1 : List β)
    (h : ∀ a ∈ l1, ∀ b ∈ m1, ¬ ka a = kb b) :
    ((nestedLoopPairs l1 m1).countP fun q => decide (ka q.1 = kb q.2)) = 0 := by
  rw [List.countP_eq_zero]
  intro q hq
  obtain ⟨hq1, hq2⟩ := mem_nestedLoopPairs hq
  simpa using h q.1 hq1 q.2 hq2

/-- On key-sorted inputs the merge loop emits exactly as many rows as there
are key-matching pairs. -/
theorem mergeJoin_length (ka : α → Int) (kb : β → Int) (la : List α) (lb : List β)
    (ha : la.Pairwise fun r s => ka r ≤ ka s) (hb : lb.Pairwise fun r s => kb r ≤ kb s) :
    (mergeJoin ka kb la lb).length =
      ((nestedLoopPairs la lb).countP fun q => decide (ka q.1 = kb q.2)) := by
  revert ha hb
  induction la, lb using mergeJoin.induct ka kb with
  | case1 lb =>
    intro _ _
    simp [mergeJoin, nestedLoopPairs]
  | case2 x xs =>
    intro _ _
    simp only [mergeJoin, nestedLoopPairs, List.length_nil]
    symm
    rw [List.countP_eq_zero]
    intro q hq
    rw [List.mem_flatMap] at hq
    obtain ⟨z, _, hz⟩ := hq
    simp at hz
  | case3 x xs y ys ih =>
    intro ha hb
    have hbound_a : ∀ r ∈ x :: xs, min (ka x) (kb y) ≤ ka r := by
      intro r hr
      rcases List.mem_cons.mp hr with rfl | hmem
      · exact min_le_left _ _
      · exact le_trans (min_le_left _ _) ((List.pairwise_cons.mp ha).1 r hmem)
    have hbound_b : ∀ r ∈ y :: ys, min (ka x) (kb y) ≤ kb r := by
      intro r hr
      rcases List.mem_cons.mp hr with rfl | hmem
      · exact min_le_right _ _
      · exact le_trans (min_le_right _ _) ((List.pairwise_cons.mp hb).1 r hmem)
    have hga : ∀ r ∈ (x :: xs).takeWhile (fun r => decide (ka r = min (ka x) (kb y))),
        ka r = min (ka x) (kb y) := fun r hr => by
      simpa using List.mem_takeWhile_imp hr
    have hgb : ∀ r ∈ (y :: ys).takeWhile (fun r => decide (kb r = min (ka x) (kb y))),
        kb r = min (ka x) (kb y) := fun r hr => by
      simpa using List.mem_takeWhile_imp hr
    have hla2 : ∀ r ∈ (x :: xs).dropWhile (fun r => decide (ka r = min (ka x) (kb y))),
        min (ka x) (kb y) < ka r := dropWhile_key_gt ka _ _ ha hbound_a
    have hlb2 : ∀ r ∈ (y :: ys).dropWhile (fun r => decide (kb r = min (ka x) (kb y))),
        min (ka x) (kb y) < kb r := dropWhile_key_gt kb _ _ hb hbound_b
    have hsa : ((x :: xs).dropWhile
        (fun r => decide (ka r = min (ka x) (kb y)))).Pairwise
          (fun r s => ka r ≤ ka s) := ha.sublist (List.dropWhile_sublist _)
    have hsb : ((y :: ys).dropWhile
        (fun r => decide (kb r = min (ka x) (kb y)))).Pairwise
          (fun r s => kb r ≤ kb s) := hb.sublist (List.dropWhile_sublist _)
    have hsplit_a : (x :: xs) =
        ((x :: xs).takeWhile fun r => decide (ka r = min (ka x) (kb y))) ++
          ((x :: xs).dropWhile fun r => decide (ka r = min (ka x) (kb y))) :=
      (List.takeWhile_append_dropWhile _ _).symm
    have hsplit_b : (y :: ys) =
        ((y :: ys).takeWhile fun r => decide (kb r = min (ka x) (kb y))) ++
          ((y :: ys).dropWhile fun r => decide (kb r = min (ka x) (kb y))) :=
      (List.takeWhile_append_dropWhile _ _).symm
    have hrhs : ((nestedLoopPairs (x :: xs) (y :: ys)).countP
        fun q => decide (ka q.1 = kb q.2)) =
        ((x :: xs).takeWhile fun r => decide (ka r = min (ka x) (kb y))).length *
          ((y :: ys).takeWhile fun r => decide (kb r = min (ka x) (kb y))).length +
        ((nestedLoopPairs
            ((x :: xs).dropWhile fun r => decide (ka r = min (ka x) (kb y)))
            ((y :: ys).dropWhile fun r => decide (kb r = min (ka x) (kb y)))).countP
          fun q => decide (ka q.1 = kb q.2)) := by
      conv_lhs => rw [hsplit_a, hsplit_b]
      rw [nestedLoopPairs_append_left, List.countP_append,
        countP_nestedLoopPairs_right, countP_nestedLoopPairs_right]
      rw [cnt_all_match ka kb (min (ka x) (kb y)) _ _ hga hgb]
      rw [cnt_no_match ka kb _ _ (fun a haa b hbb => by
        have h1 := hga a haa
        have h2 := hlb2 b hbb
        omega)]
      rw [cnt_no_match ka kb _ _ (fun a haa b hbb => by
        have h1 := hla2 a haa
        have h2 := hgb b hbb
        omega)]
      omega
    rw [mergeJoin, List.length_append, nestedLoopPairs_length, ih hsa hsb, hrhs]

theorem cnt_eq_sum (P : α × β → Bool) (la : List α) (lb : List β) :
    (nestedLoopPairs la lb).countP P =
      (la.map fun x => lb.countP fun y => P (x, y)).sum := by
  induction la with
  | nil => simp [nestedLoopPairs]
  | cons x xs ih =>
    simp only [nestedLoopPairs, List.flatMap_cons, List.countP_append, List.map_cons,
      List.sum_cons] at *
    rw [ih, List.countP_map]
    rfl

theorem countP_nestedLoopPairs_perm (P : α × β → Bool) {la la2 : List α} {lb lb2 : List β}
    (h1 : la.Perm la2) (h2 : lb.Perm lb2) :
    (nestedLoopPairs la lb).countP P = (nestedLoopPairs la2 lb2).countP P := by
  rw [cnt_eq_sum, cnt_eq_sum]
  have he : (fun x => lb.countP fun y => P (x, y)) =
      fun x => lb2.countP fun y => P (x, y) :=
    funext fun x => h2.countP_eq _
  rw [he]
  exact (h1.map _).sum_eq

/-- C2: for the equi-join `a.k = b.k`, the sort-merge join produces exactly
as many output rows as the nested-loop pairing restricted to key-matching
pairs, and every output row's two key values are equal (no row for an
unmatched key — inner join). -/
theorem sort_merge_join_correct (ka : α → Int) (kb : β → Int)
    (la : List α) (lb : List β) :
    (sort_merge_join ka kb la lb).length =
      ((nestedLoopPairs la lb).filter fun q => decide (ka q.1 = kb q.2)).length ∧
    ∀ q ∈ sort_merge_join ka kb la lb, ka q.1 = kb q.2 := by
  constructor
  · unfold sort_merge_join
    rw [mergeJoin_length ka kb _ _ (pySortBy_sorted ka la) (pySortBy_sorted kb lb)]
    rw [← List.countP_eq_length_filter]
    exact countP_nestedLoopPairs_perm _ (pySortBy_perm ka la) (pySortBy_perm kb lb)
  · intro q hq
    exact mergeJoin_keys ka kb _ _ q hq

/-! ## C3 — the plan scheduler -/

theorem mem_dependents {p : Plan τ} {i d : Nat} :
    d ∈ p.dependents i ↔ d < p.n ∧ i ∈ p.deps d := by
  simp [Plan.dependents, List.mem_filter, List.mem_range]

theorem mem_leaves {p : Plan τ} {i : Nat} :
    i ∈ p.leaves ↔ i < p.n ∧ p.deps i = [] := by
  simp [Plan.leaves, List.mem_filter, List.mem_range]

theorem denote_eq (p : RankedPlan τ) (i : Nat) :
    denote p i = p.toPlan.op i ((p.toPlan.deps i).map (denote p)) := by
  rw [denote]
  congr 1
  exact List.attach_map_val _ _

theorem getDeps_some (p : RankedPlan τ) (contexts : Nat → Option τ) :
    ∀ ds : List Nat, (∀ d ∈ ds, contexts d = some (denote p d)) →
      getDeps contexts ds = some (ds.map (denote p)) := by
  intro ds
  induction ds with
  | nil => intro _; rfl
  | cons d ds ih =>
    intro h
    rw [getDeps, h d (by simp), ih fun x hx => h x (by simp [hx])]
    rfl

theorem upd_isSome (contexts : Nat → Option τ) (node : Nat) (t : τ) (d : Nat)
    (h : (contexts d).isSome) : ((upd contexts node t) d).isSome := by
  unfold upd
  by_cases hd : d = node
  · simp [hd]
  · simpa [hd] using h

theorem sched_log_length_le (p : RankedPlan τ) (log : List Nat) (hnd : log.Nodup)
    (hlt : ∀ i ∈ log, i < p.n) : log.length ≤ p.n := by
  have h1 : log.toFinset.card = log.length := List.toFinset_card_of_nodup hnd
  have h2 : log.toFinset ⊆ Finset.range p.n := by
    intro x hx
    exact Finset.mem_range.mpr (hlt x (List.mem_toFinset.mp hx))
  have h3 := Finset.card_le_card h2
  rw [h1, Finset.card_range] at h3
  exact h3

/-- One scheduler step preserves the invariant: pop `node`, record its
output, mark it running, enqueue the now-ready dependents. -/
theorem schedInv_step (p : RankedPlan τ) (node : Nat) (queue2 running : List Nat)
    (contexts : Nat → Option τ) (log : List Nat)
    (hInv : SchedInv p (node :: queue2) running contexts log) :
    SchedInv p
      (queue2 ++ (p.toPlan.dependents node).filter fun d =>
        decide (d ∉ node :: running) && p.toPlan.ready (upd contexts node (denote p node)) d)
      (node :: running)
      (upd contexts node (denote p node))
      (log ++ [node]) := by
  have hfresh : node ∉ log := hInv.q_fresh node (List.mem_cons_self _ _)
  have hnlt : node < p.n := hInv.q_lt node (List.mem_cons_self _ _)
  have hq2 : queue2.Nodup ∧ node ∉ queue2 := by
    have h := hInv.q_nodup
    rw [List.nodup_cons] at h
    exact ⟨h.2, h.1⟩
  have hready_node : ∀ d ∈ p.deps node, d ∈ log := fun d hd =>
    (hInv.ctx_iff d).mp (hInv.q_ready node (List.mem_cons_self _ _) d hd)
  refine ⟨?_, ?_, ?_, ?_, ?_, ?_, ?_, ?_, ?_, ?_, ?_⟩
  · rw [List.nodup_append]
    refine ⟨hInv.nodup_log, by simp, ?_⟩
    intro a ha hb
    rw [List.mem_singleton] at hb
    subst hb
    exact hfresh ha
  · intro i
    simp only [List.mem_cons, List.mem_append, List.mem_singleton, hInv.run_iff i]
    tauto
  · intro i
    by_cases h : i = node
    · subst h
      simp [upd]
    · simp only [upd, if_neg h, List.mem_append, List.mem_singleton, hInv.ctx_iff i]
      tauto
  · intro i t ht
    by_cases h : i = node
    · have h2 : some (denote p node) = some t := by
        rw [← ht]
        simp [upd, h]
      rw [h]
      exact (Option.some_inj.mp h2).symm
    · exact hInv.ctx_val i t (by simpa [upd, h] using ht)
  · intro i hi
    rcases List.mem_append.mp hi with h | h
    · exact hInv.log_lt i h
    · rw [List.mem_singleton] at h
      subst h
      exact hnlt
  · intro k hk d hd
    have hk2 : k < log.length + 1 := by simpa using hk
    by_cases hklt : k < log.length
    · have hgeteq : (log ++ [node]).get ⟨k, hk⟩ = log.get ⟨k, hklt⟩ := by
        rw [List.get_eq_getElem, List.get_eq_getElem]
        exact List.getElem_append_left hklt
      rw [hgeteq] at hd
      rw [List.take_append_eq_append_take]
      have h0 : k - log.length = 0 := by omega
      rw [h0, List.take_zero, List.append_nil]
      exact hInv.log_deps k hklt d hd
    · have hkeq : k = log.length := by omega
      subst hkeq
      have hgeteq : (log ++ [node]).get ⟨log.length, hk⟩ = node := by
        rw [List.get_eq_getElem]
        simp
      rw [hgeteq] at hd
      rw [List.take_append_eq_append_take, Nat.sub_self, List.take_zero, List.append_nil,
        List.take_length]
      exact hready_node d hd
  · rw [List.nodup_append]
    refine ⟨hq2.1, List.Nodup.filter _ ?_, ?_⟩
    · exact (List.nodup_range p.n).filter _
    · intro a ha hb
      rw [List.mem_filter] at hb
      have hcond := hb.2
      rw [Bool.and_eq_true, decide_eq_true_eq] at hcond
      have hdep : node ∈ p.deps a := (mem_dependents.mp hb.1).2
      have hsome : (contexts node).isSome :=
        hInv.q_ready a (List.mem_cons_of_mem node ha) node hdep
      have : node ∈ log := (hInv.ctx_iff node).mp hsome
      exact hfresh this
  · intro i hi
    rcases List.mem_append.mp hi with h | h
    · exact hInv.q_lt i (List.mem_cons_of_mem node h)
    · exact (mem_dependents.mp (List.mem_filter.mp h).1).1
  · intro i hi
    rcases List.mem_append.mp hi with h | h
    · intro hcontra
      rcases List.mem_append.mp hcontra with hc | hc
      · exact hInv.q_fresh i (List.mem_cons_of_mem node h) hc
      · rw [List.mem_singleton] at hc
        subst hc
        exact hq2.2 h
    · intro hcontra
      have hcond := (List.mem_filter.mp h).2
      rw [Bool.and_eq_true, decide_eq_true_eq] at hcond
      rcases List.mem_append.mp hcontra with hc | hc
      · exact hcond.1 (List.mem_cons_of_mem node ((hInv.run_iff i).mpr hc))
      · rw [List.mem_singleton] at hc
        subst hc
        exact hcond.1 (List.mem_cons_self _ _)
  · intro i hi d hd
    rcases List.mem_append.mp hi with h | h
    · exact upd_isSome contexts node _ d
        (hInv.q_ready i (List.mem_cons_of_mem node h) d hd)
    · have hcond := (List.mem_filter.mp h).2
      rw [Bool.and_eq_true] at hcond
      have hready := hcond.2
      unfold Plan.ready at hready
      rw [List.all_eq_true] at hready
      exact hready d hd
  · intro i hilt
    rcases hInv.coverage i hilt with h | h | ⟨d, hd, hnone⟩
    · rcases List.mem_cons.mp h with rfl | h2
      · exact Or.inr (Or.inl (by simp))
      · exact Or.inl (List.mem_append_left _ h2)
    · exact Or.inr (Or.inl (List.mem_append_left _ h))
    · by_cases hdn : d = node
      · subst hdn
        by_cases hmem : i ∈ d :: running
        · rcases List.mem_cons.mp hmem with rfl | h2
          · exact Or.inr (Or.inl (by simp))
          · exact Or.inr (Or.inl (List.mem_append_left _ ((hInv.run_iff i).mp h2)))
        · by_cases hready2 : p.toPlan.ready (upd contexts d (denote p d)) i = true
          · refine Or.inl (List.mem_append_right _ ?_)
            rw [List.mem_filter]
            refine ⟨mem_dependents.mpr ⟨hilt, hd⟩, ?_⟩
            rw [Bool.and_eq_true, decide_eq_true_eq]
            exact ⟨hmem, hready2⟩
          · refine Or.inr (Or.inr ?_)
            unfold Plan.ready at hready2
            rw [List.all_eq_true] at hready2
            push_neg at hready2
            obtain ⟨d2, hd2, hns⟩ := hready2
            refine ⟨d2, hd2, ?_⟩
            rw [← Option.not_isSome_iff_eq_none]
            simpa using hns
      · refine Or.inr (Or.inr ⟨d, hd, ?_⟩)
        simpa [upd, hdn] using hnone

/-- Running the scheduler loop from an invariant state with enough fuel
reaches the empty queue with the invariant intact. -/
theorem execLoop_sound (p : RankedPlan τ) :
    ∀ (fuel : Nat) (queue running : List Nat) (contexts : Nat → Option τ)
      (log : List Nat),
      SchedInv p queue running contexts log →
      p.n + 1 ≤ fuel + log.length →
      ∃ contexts2 log2 running2,
        execLoop p.toPlan fuel queue running contexts log = some (contexts2, log2) ∧
        SchedInv p [] running2 contexts2 log2 := by
  intro fuel
  induction fuel with
  | zero =>
    intro queue running contexts log hInv hfuel
    cases queue with
    | nil => exact ⟨contexts, log, running, rfl, hInv⟩
    | cons node queue2 =>
      exfalso
      have := sched_log_length_le p log hInv.nodup_log hInv.log_lt
      omega
  | succ fuel ih =>
    intro queue running contexts log hInv hfuel
    cases queue with
    | nil => exact ⟨contexts, log, running, rfl, hInv⟩
    | cons node queue2 =>
      have hdeps_val : ∀ d ∈ p.deps node, contexts d = some (denote p d) := by
        intro d hd
        have hsome := hInv.q_ready node (List.mem_cons_self _ _) d hd
        obtain ⟨t, ht⟩ := Option.isSome_iff_exists.mp hsome
        rw [ht, hInv.ctx_val d t ht]
      have hget : getDeps contexts (p.toPlan.deps node) =
          some ((p.toPlan.deps node).map (denote p)) :=
        getDeps_some p contexts _ hdeps_val
      have hop : p.toPlan.op node ((p.toPlan.deps node).map (denote p)) = denote p node :=
        (denote_eq p node).symm
      have hstep : execLoop p.toPlan (fuel + 1) (node :: queue2) running contexts log =
          execLoop p.toPlan fuel
            (queue2 ++ (p.toPlan.dependents node).filter fun d =>
              decide (d ∉ node :: running) &&
                p.toPlan.ready (upd contexts node (denote p node)) d)
            (node :: running)
            (upd contexts node (denote p node))
            (log ++ [node]) := by
        rw [execLoop, hget]
        show execLoop p.toPlan fuel
            (queue2 ++ (p.toPlan.dependents node).filter fun d =>
              decide (d ∉ node :: running) &&
                p.toPlan.ready (upd contexts node
                  (p.toPlan.op node ((p.toPlan.deps node).map (denote p)))) d)
            (node :: running)
            (upd contexts node (p.toPlan.op node ((p.toPlan.deps node).map (denote p))))
            (log ++ [node]) = _
        rw [hop]
      have hInv2 := schedInv_step p node queue2 running contexts log hInv
      obtain ⟨c2, l2, r2, hrec, hInvf⟩ := ih _ _ _ _ hInv2 (by
        rw [List.length_append, List.length_singleton]
        omega)
      exact ⟨c2, l2, r2, by rw [hstep]; exact hrec, hInvf⟩

/-- C3: on every acyclic, well-formed plan the scheduler terminates; it
executes every node exactly once (the ghost log has no duplicates and covers
all nodes), a node runs only after all its dependencies have finished and
recorded their outputs (every dependency of the node at log position `k`
appears strictly earlier in the log, and its output table is present),
every recorded output is the node's operator applied to its dependencies'
outputs (`denote`), and the returned table is the root's output. -/
theorem execute_plan_correct (p : RankedPlan τ) (hroot : p.root < p.n) :
    ∃ contexts log,
      execLoop p.toPlan (p.n + 1) p.toPlan.leaves [] (fun _ => none) [] =
        some (contexts, log) ∧
      log.Nodup ∧
      (∀ i, i < p.n → i ∈ log) ∧
      (∀ k, (hk : k < log.length) → ∀ d ∈ p.deps (log.get ⟨k, hk⟩), d ∈ log.take k) ∧
      (∀ i, i < p.n → contexts i = some (denote p i)) ∧
      execute_plan p.toPlan = some (denote p p.root) := by
  have hInv0 : SchedInv p p.toPlan.leaves [] (fun _ => none) [] := by
    refine ⟨by simp, by simp, by simp, by simp, by simp, ?_, ?_, ?_, by simp, ?_, ?_⟩
    · intro k hk
      simp at hk
    · exact (List.nodup_range p.n).filter _
    · intro i hi
      exact (mem_leaves.mp hi).1
    · intro i hi d hd
      rw [(mem_leaves.mp hi).2] at hd
      simp at hd
    · intro i hilt
      by_cases h : p.toPlan.deps i = []
      · exact Or.inl (mem_leaves.mpr ⟨hilt, h⟩)
      · obtain ⟨d, hd⟩ := List.exists_mem_of_ne_nil _ h
        exact Or.inr (Or.inr ⟨d, hd, rfl⟩)
  obtain ⟨c2, l2, r2, hrun, hInv⟩ :=
    execLoop_sound p (p.n + 1) p.toPlan.leaves [] (fun _ => none) [] hInv0 (by simp)
  have hall : ∀ i, i < p.n → i ∈ l2 := by
    have hstrong : ∀ r i, p.rank i ≤ r → i < p.n → i ∈ l2 := by
      intro r
      induction r with
      | zero =>
        intro i hr hlt
        rcases hInv.coverage i hlt with h | h | ⟨d, hd, _⟩
        · simp at h
        · exact h
        · have := p.rank_lt i d hd
          omega
      | succ r ihr =>
        intro i hr hlt
        rcases hInv.coverage i hlt with h | h | ⟨d, hd, hnone⟩
        · simp at h
        · exact h
        · exfalso
          have hdn : d < p.n := p.deps_lt i d hd
          have hdl : d ∈ l2 := ihr d (by have := p.rank_lt i d hd; omega) hdn
          have hsome := (hInv.ctx_iff d).mpr hdl
          rw [hnone] at hsome
          simp at hsome
    exact fun i h => hstrong (p.rank i) i (le_refl _) h
  have hctx : ∀ i, i < p.n → c2 i = some (denote p i) := by
    intro i hi
    have hsome := (hInv.ctx_iff i).mpr (hall i hi)
    obtain ⟨t, ht⟩ := Option.isSome_iff_exists.mp hsome
    rw [ht, hInv.ctx_val i t ht]
  refine ⟨c2, l2, hrun, hInv.nodup_log, hall, hInv.log_deps, hctx, ?_⟩
  unfold execute_plan
  rw [hrun]
  exact hctx p.root hroot

/-- C3 witness: the two-leaf diamond plan with root 2. -/
theorem execute_plan_correct_witness :
    diamondPlan.root < diamondPlan.n ∧
    ∃ contexts log,
      execLoop diamondPlan.toPlan (diamondPlan.n + 1) diamondPlan.toPlan.leaves []
          (fun _ => none) [] = some (contexts, log) ∧
      log.Nodup ∧
      (∀ i, i < diamondPlan.n → i ∈ log) ∧
      (∀ k, (hk : k < log.length) →
        ∀ d ∈ diamondPlan.deps (log.get ⟨k, hk⟩), d ∈ log.take k) ∧
      (∀ i, i < diamondPlan.n → contexts i = some (denote diamondPlan i)) ∧
      execute_plan diamondPlan.toPlan = some (denote diamondPlan diamondPlan.root) :=
  ⟨by decide, execute_plan_correct diamondPlan (by decide)⟩

end Executor


